import Mathlib

/-!
Verification of the Active Provider Manager of `m3u-filter`
(`src/api/model/active_provider_manager.rs`).

The Rust code tracks per-provider connection counts in `AtomicU16` fields and
selects providers by priority and round-robin cursors.  Here the state is made
explicit: every operation takes the data structure and returns the updated one.
Counters are `Nat` with the `u16` wrap (`% 65536`) applied where the source
performs `fetch_add`.  Fields of `ProviderConfig` that the allocation logic
never reads (`url`, `username`, `password`, `input_type`) are omitted.
-/

/-- One upstream endpoint: immutable descriptor plus the connection counter
(`AtomicU16` in the source, here a plain `Nat` mutated by state passing). -/
structure ProviderConfig where
  id : Nat
  name : String
  max_connections : Nat
  priority : Int
  current_connections : Nat
deriving DecidableEq

/-- Result of an allocation attempt (`ProviderAllocation` in the source);
the non-exhausted variants carry the chosen provider's record. -/
inductive ProviderAllocation where
  | Exhausted
  | Available (cfg : ProviderConfig)
  | GracePeriod (cfg : ProviderConfig)
deriving DecidableEq

/-- `current_connections.fetch_add(1)` on an `AtomicU16`: increment with u16 wrap. -/
def incConn (p : ProviderConfig) : ProviderConfig :=
  { p with current_connections := (p.current_connections + 1) % 65536 }

/-- `ProviderConfig::try_allocate`: returns the source's `u8` code
(1 = granted, 2 = grace, 3 = denied) and the updated provider. -/
def ProviderConfig.try_allocate (p : ProviderConfig) (grace : Bool) : Nat × ProviderConfig :=
  if p.max_connections = 0 then
    (1, incConn p)
  else if (grace = false ∧ p.current_connections < p.max_connections) ∨
          (grace = true ∧ p.current_connections ≤ p.max_connections) then
    (if p.current_connections < p.max_connections then (1 : Nat) else 2, incConn p)
  else
    (3, p)

/-- `ProviderConfig::force_allocate`: unconditional increment. -/
def ProviderConfig.force_allocate (p : ProviderConfig) : ProviderConfig :=
  incConn p

/-- `ProviderConfig::get_next`: the non-mutating capacity probe used by redirects. -/
def ProviderConfig.get_next (p : ProviderConfig) (grace : Bool) : Bool :=
  if p.max_connections = 0 then true
  else if (grace = false ∧ p.current_connections < p.max_connections) ∨
          (grace = true ∧ p.current_connections ≤ p.max_connections) then true
  else false

/-- `ProviderConfig::release`: decrement, clamped at zero. -/
def ProviderConfig.release (p : ProviderConfig) : ProviderConfig :=
  if p.current_connections > 0 then
    { p with current_connections := p.current_connections - 1 }
  else p

/-- `ProviderConfig::is_exhausted`. -/
def ProviderConfig.is_exhausted (p : ProviderConfig) : Bool :=
  decide (0 < p.max_connections ∧ p.max_connections ≤ p.current_connections)

/-- `ProviderConfigWrapper::try_allocate`'s mapping of the `u8` code to a
`ProviderAllocation` carrying the (already updated) provider. -/
def allocResult (code : Nat) (p : ProviderConfig) : ProviderAllocation :=
  if code = 1 then .Available p
  else if code = 2 then .GracePeriod p
  else .Exhausted

/-- The three counter-mutating operations of a single provider. -/
inductive CounterOp where
  | tryAlloc (grace : Bool)
  | forceAlloc
  | release
deriving DecidableEq

/-- Apply one counter-mutating operation to a provider. -/
def applyOp (p : ProviderConfig) : CounterOp → ProviderConfig
  | .tryAlloc grace => (p.try_allocate grace).2
  | .forceAlloc => p.force_allocate
  | .release => p.release

/-- Apply a sequence of counter-mutating operations. -/
def applyOps (p : ProviderConfig) (ops : List CounterOp) : ProviderConfig :=
  ops.foldl applyOp p

/-- `ProviderPriorityGroup`: providers sharing one priority, either a single
provider or a ring with a round-robin cursor (`AtomicUsize` in the source). -/
inductive ProviderPriorityGroup where
  | SingleProviderGroup (p : ProviderConfig)
  | MultiProviderGroup (index : Nat) (providers : List ProviderConfig)
deriving DecidableEq

/-- The providers of a priority group, in declaration order. -/
def ProviderPriorityGroup.provs : ProviderPriorityGroup → List ProviderConfig
  | .SingleProviderGroup p => [p]
  | .MultiProviderGroup _ ps => ps

/-- `ProviderPriorityGroup::is_exhausted`: every member is exhausted. -/
def ProviderPriorityGroup.is_exhausted : ProviderPriorityGroup → Bool
  | .SingleProviderGroup p => p.is_exhausted
  | .MultiProviderGroup _ ps => ps.all (·.is_exhausted)

/-- The `for _ in start..provider_count` loop of
`MultiProviderLineup::acquire_next_provider_from_group`: `fuel` is the number
of remaining iterations, `idx` the live cursor.  On the first non-denied
`try_allocate` it returns the allocation, the advanced cursor and the updated
ring; a denied provider leaves the ring untouched. -/
def acquireGroupLoop (grace : Bool) :
    Nat → Nat → List ProviderConfig → ProviderAllocation × Nat × List ProviderConfig
  | 0, idx, ps => (.Exhausted, idx, ps)
  | fuel + 1, idx, ps =>
    match ps.get? idx with
    | none => (.Exhausted, idx, ps)
    | some p =>
      let idx2 := (idx + 1) % ps.length
      let r := p.try_allocate grace
      if r.1 = 3 then
        acquireGroupLoop grace fuel idx2 ps
      else
        (allocResult r.1 r.2, idx2, ps.set idx r.2)

/-- `MultiProviderLineup::acquire_next_provider_from_group`. -/
def acquire_next_provider_from_group (g : ProviderPriorityGroup) (grace : Bool) :
    ProviderAllocation × ProviderPriorityGroup :=
  match g with
  | .SingleProviderGroup p =>
    let r := p.try_allocate grace
    (allocResult r.1 r.2, .SingleProviderGroup r.2)
  | .MultiProviderGroup index ps =>
    let r := acquireGroupLoop grace (ps.length - index) index ps
    (r.1, .MultiProviderGroup r.2.1 r.2.2)

/-- The ring loop of `MultiProviderLineup::get_next_provider_from_group`:
probes with `ProviderConfig::get_next`, never mutating counters, and returns
the candidate together with the advanced cursor. -/
def getNextGroupLoop (grace : Bool) :
    Nat → Nat → List ProviderConfig → Option ProviderConfig × Nat
  | 0, idx, _ => (none, idx)
  | fuel + 1, idx, ps =>
    match ps.get? idx with
    | none => (none, idx)
    | some p =>
      let idx2 := (idx + 1) % ps.length
      if p.get_next grace then (some p, idx2)
      else getNextGroupLoop grace fuel idx2 ps

/-- `MultiProviderLineup::get_next_provider_from_group`. -/
def get_next_provider_from_group (g : ProviderPriorityGroup) (grace : Bool) :
    Option ProviderConfig × ProviderPriorityGroup :=
  match g with
  | .SingleProviderGroup p =>
    (if p.get_next grace then some p else none, .SingleProviderGroup p)
  | .MultiProviderGroup index ps =>
    let r := getNextGroupLoop grace (ps.length - index) index ps
    (r.1, .MultiProviderGroup r.2 ps)

/-- A lineup: `Single(SingleProviderLineup)` or `Multi(MultiProviderLineup)`
with its priority groups and main cursor. -/
inductive ProviderLineup where
  | Single (provider : ProviderConfig)
  | Multi (providers : List ProviderPriorityGroup) (index : Nat)
deriving DecidableEq

/-- The `allocation = { ... }` block inside `MultiProviderLineup::acquire`:
try the group without grace; if that exhausted, retry the same group with
grace. -/
def acquireGroupWithGrace (g : ProviderPriorityGroup) :
    ProviderAllocation × ProviderPriorityGroup :=
  let r1 := acquire_next_provider_from_group g false
  if r1.1 = .Exhausted then acquire_next_provider_from_group r1.2 true else r1

/-- The `for index in main_idx..provider_count` walk of
`MultiProviderLineup::acquire`: each group is tried without grace, then — if
that denied — with grace; on success the main cursor advances past a group
that became exhausted. -/
def mplAcquireGo :
    Nat → Nat → Nat → List ProviderPriorityGroup →
      ProviderAllocation × Nat × List ProviderPriorityGroup
  | 0, _, curIdx, groups => (.Exhausted, curIdx, groups)
  | fuel + 1, i, curIdx, groups =>
    match groups.get? i with
    | none => (.Exhausted, curIdx, groups)
    | some g =>
      let r2 := acquireGroupWithGrace g
      let groups2 := groups.set i r2.2
      match r2.1 with
      | .Exhausted => mplAcquireGo fuel (i + 1) curIdx groups2
      | alloc =>
        let newIdx := if r2.2.is_exhausted then (i + 1) % groups2.length else curIdx
        (alloc, newIdx, groups2)

/-- `ProviderLineup::acquire` (the `Single` arm is
`SingleProviderLineup::acquire`, i.e. `try_allocate(true)`). -/
def ProviderLineup.acquire : ProviderLineup → ProviderAllocation × ProviderLineup
  | .Single p =>
    let r := p.try_allocate true
    (allocResult r.1 r.2, .Single r.2)
  | .Multi groups index =>
    let r := mplAcquireGo (groups.length - index) index index groups
    (r.1, .Multi r.2.2 r.2.1)

/-- The walk of `MultiProviderLineup::get_next`, mirroring `mplAcquireGo`
but with the non-mutating probes. -/
def mplGetNextGo :
    Nat → Nat → Nat → List ProviderPriorityGroup →
      Option ProviderConfig × Nat × List ProviderPriorityGroup
  | 0, _, curIdx, groups => (none, curIdx, groups)
  | fuel + 1, i, curIdx, groups =>
    match groups.get? i with
    | none => (none, curIdx, groups)
    | some g =>
      let r1 := get_next_provider_from_group g false
      let r2 := if r1.1.isNone then get_next_provider_from_group r1.2 true else r1
      let groups2 := groups.set i r2.2
      match r2.1 with
      | none => mplGetNextGo fuel (i + 1) curIdx groups2
      | some cfg =>
        let newIdx := if r2.2.is_exhausted then (i + 1) % groups2.length else curIdx
        (some cfg, newIdx, groups2)

/-- `ProviderLineup::get_next` (the `Single` arm is
`SingleProviderLineup::get_next`, i.e. `get_next(false)`). -/
def ProviderLineup.get_next : ProviderLineup → Option ProviderConfig × ProviderLineup
  | .Single p => (if p.get_next false then some p else none, .Single p)
  | .Multi groups index =>
    let r := mplGetNextGo (groups.length - index) index index groups
    (r.1, .Multi r.2.2 r.2.1)

/-- Decrement the first provider with the given name (`release` applied at the
first name match; the loops in `MultiProviderLineup::release` stop there). -/
def updateFirstBy (name : String) (f : ProviderConfig → ProviderConfig) :
    List ProviderConfig → List ProviderConfig
  | [] => []
  | p :: t => if p.name = name then f p :: t else p :: updateFirstBy name f t

/-- The group walk of `MultiProviderLineup::release`: the first group holding
the name releases its first matching member, later groups are untouched. -/
def releaseGroups (name : String) : List ProviderPriorityGroup → List ProviderPriorityGroup
  | [] => []
  | .SingleProviderGroup p :: rest =>
    if p.name = name then .SingleProviderGroup p.release :: rest
    else .SingleProviderGroup p :: releaseGroups name rest
  | .MultiProviderGroup idx ps :: rest =>
    if ps.any (fun q => q.name = name) then
      .MultiProviderGroup idx (updateFirstBy name ProviderConfig.release ps) :: rest
    else .MultiProviderGroup idx ps :: releaseGroups name rest

/-- `ProviderLineup::release`. -/
def ProviderLineup.release (l : ProviderLineup) (name : String) : ProviderLineup :=
  match l with
  | .Single p => if p.name = name then .Single p.release else .Single p
  | .Multi groups idx => .Multi (releaseGroups name groups) idx

/-- All providers of a lineup in the order `get_provider_config` visits them. -/
def ProviderLineup.provs : ProviderLineup → List ProviderConfig
  | .Single p => [p]
  | .Multi groups _ => (groups.map ProviderPriorityGroup.provs).flatten

/-- Does the lineup contain a provider with this name
(the per-lineup test inside `ActiveProviderManager::get_provider_config`)? -/
def ProviderLineup.containsName (l : ProviderLineup) (name : String) : Bool :=
  l.provs.any (fun p => p.name = name)

/-- All providers of the manager in `get_provider_config` order. -/
def provsM (lineups : List ProviderLineup) : List ProviderConfig :=
  (lineups.map ProviderLineup.provs).flatten

/-- `ActiveProviderManager::acquire_connection`: the first lineup containing
the name runs its full `acquire`; an unknown name yields `Exhausted`. -/
def acquire_connection (name : String) :
    List ProviderLineup → ProviderAllocation × List ProviderLineup
  | [] => (.Exhausted, [])
  | l :: rest =>
    if l.containsName name then
      let r := l.acquire
      (r.1, r.2 :: rest)
    else
      let r := acquire_connection name rest
      (r.1, l :: r.2)

/-- `ActiveProviderManager::release_connection`: the first lineup containing
the name runs its `release`; an unknown name is ignored. -/
def release_connection (name : String) : List ProviderLineup → List ProviderLineup
  | [] => []
  | l :: rest =>
    if l.containsName name then l.release name :: rest
    else l :: release_connection name rest

/-- `ActiveProviderManager::get_next_provider`. -/
def get_next_provider (name : String) :
    List ProviderLineup → Option ProviderConfig × List ProviderLineup
  | [] => (none, [])
  | l :: rest =>
    if l.containsName name then
      let r := l.get_next
      (r.1, r.2 :: rest)
    else
      let r := get_next_provider name rest
      (r.1, l :: r.2)

/-- `impl Drop for ProviderConnectionGuard`: a non-exhausted guard schedules
`release_connection` on its provider's name; an exhausted guard does nothing. -/
def guardDrop (alloc : ProviderAllocation) (lineups : List ProviderLineup) :
    List ProviderLineup :=
  match alloc with
  | .Exhausted => lineups
  | .Available cfg => release_connection cfg.name lineups
  | .GracePeriod cfg => release_connection cfg.name lineups

/-- `force_allocate` applied in place to the first provider with the given
name inside a ring, returning the updated record (the `Arc` the source's
`ProviderConfigWrapper::force_allocate` hands back). -/
def forceFirst (name : String) :
    List ProviderConfig → Option ProviderConfig × List ProviderConfig
  | [] => (none, [])
  | p :: t =>
    if p.name = name then (some p.force_allocate, p.force_allocate :: t)
    else
      let r := forceFirst name t
      (r.1, p :: r.2)

/-- The group walk of the forced path: find the first provider with the name
(exactly the order of `get_provider_config`) and `force_allocate` it. -/
def forceGroups (name : String) :
    List ProviderPriorityGroup → Option ProviderConfig × List ProviderPriorityGroup
  | [] => (none, [])
  | .SingleProviderGroup p :: rest =>
    if p.name = name then (some p.force_allocate, .SingleProviderGroup p.force_allocate :: rest)
    else
      let r := forceGroups name rest
      (r.1, .SingleProviderGroup p :: r.2)
  | .MultiProviderGroup idx ps :: rest =>
    if ps.any (fun q => q.name = name) then
      let r := forceFirst name ps
      (r.1, .MultiProviderGroup idx r.2 :: rest)
    else
      let r := forceGroups name rest
      (r.1, .MultiProviderGroup idx ps :: r.2)

/-- The forced path inside one lineup. -/
def ProviderLineup.forceAllocate (l : ProviderLineup) (name : String) :
    Option ProviderConfig × ProviderLineup :=
  match l with
  | .Single p =>
    if p.name = name then (some p.force_allocate, .Single p.force_allocate)
    else (none, .Single p)
  | .Multi groups idx =>
    let r := forceGroups name groups
    (r.1, .Multi r.2 idx)

/-- `ActiveProviderManager::force_exact_acquire_connection`: look the name up
with `get_provider_config`, `force_allocate` that provider and wrap it in an
`Available` guard; an unknown name yields `Exhausted`. -/
def force_exact_acquire_connection (name : String) :
    List ProviderLineup → ProviderAllocation × List ProviderLineup
  | [] => (.Exhausted, [])
  | l :: rest =>
    if l.containsName name then
      let r := l.forceAllocate name
      (match r.1 with
       | some cfg => ProviderAllocation.Available cfg
       | none => ProviderAllocation.Exhausted, r.2 :: rest)
    else
      let r := force_exact_acquire_connection name rest
      (r.1, l :: r.2)

/-- Insert into a list of priorities kept in ascending order
(the `values.sort_by` of `MultiProviderLineup::new`). -/
def insertSorted (x : Int) : List Int → List Int
  | [] => [x]
  | y :: t => if x ≤ y then x :: y :: t else y :: insertSorted x t

/-- Sort priorities ascending. -/
def sortPrios : List Int → List Int
  | [] => []
  | x :: t => insertSorted x (sortPrios t)

/-- The distinct priorities (the key set of the `HashMap` bucketing in
`MultiProviderLineup::new`; the map order is erased by the sort). -/
def dedupPrios : List Int → List Int
  | [] => []
  | x :: t => if x ∈ t then dedupPrios t else x :: dedupPrios t

/-- `MultiProviderLineup::new` on the already-built provider records (primary
first, then the aliases): bucket by priority preserving declaration order
inside a bucket, sort buckets by ascending priority, and materialize each
bucket as a single- or multi-provider group with cursor `0`. -/
def MultiProviderLineup.new (inputs : List ProviderConfig) : ProviderLineup :=
  let prios := sortPrios (dedupPrios (inputs.map (·.priority)))
  let groups := prios.map (fun pr =>
    match inputs.filter (fun p => p.priority = pr) with
    | [p] => ProviderPriorityGroup.SingleProviderGroup p
    | ps => ProviderPriorityGroup.MultiProviderGroup 0 ps)
  ProviderLineup.Multi groups 0

/-- A fresh provider record (counter `0`). -/
def mkProvider (id : Nat) (name : String) (priority : Int) (maxc : Nat) : ProviderConfig :=
  { id := id, name := name, max_connections := maxc, priority := priority,
    current_connections := 0 }

/-- Observable shape of an allocation: which variant and which provider id. -/
inductive AllocTag where
  | available (id : Nat)
  | grace (id : Nat)
  | exhausted
deriving DecidableEq

/-- The tag of an allocation. -/
def tagOf : ProviderAllocation → AllocTag
  | .Exhausted => .exhausted
  | .Available cfg => .available cfg.id
  | .GracePeriod cfg => .grace cfg.id

/-- Tags of `n` successive `acquire` calls on a lineup. -/
def acquireTags : ProviderLineup → Nat → List AllocTag
  | _, 0 => []
  | l, n + 1 =>
    let r := l.acquire
    tagOf r.1 :: acquireTags r.2 n

/-- Ids of the candidates of `n` successive `get_next` calls on a lineup. -/
def getNextIds : ProviderLineup → Nat → List (Option Nat)
  | _, 0 => []
  | l, n + 1 =>
    let r := l.get_next
    r.1.map (·.id) :: getNextIds r.2 n

/-- The S4 lineup: P1 (id 1, prio 1, max 1) with aliases A2 (id 2, prio 1,
max 2) and A3 (id 3, prio 0, max 1). -/
def lineupS4 : ProviderLineup :=
  MultiProviderLineup.new
    [mkProvider 1 "p1" 1 1, mkProvider 2 "a2" 1 2, mkProvider 3 "a3" 0 1]

/-- C1: `try_allocate` with counter `c` grants (code 1, increment) when
`max_connections = 0` or `c < max`, grants the grace slot (code 2, increment)
when `grace` and `c = max`, and otherwise denies (code 3) without touching the
counter. -/
theorem C1_try_allocate_cases (p : ProviderConfig) (grace : Bool) :
    p.try_allocate grace =
      if p.max_connections = 0 then (1, incConn p)
      else if p.current_connections < p.max_connections then (1, incConn p)
      else if grace = true ∧ p.current_connections = p.max_connections then (2, incConn p)
      else (3, p) := by
  unfold ProviderConfig.try_allocate
  cases grace <;> split_ifs <;> simp_all <;> omega

/-- `applyOp` never changes `max_connections`. -/
theorem applyOp_max (p : ProviderConfig) (op : CounterOp) :
    (applyOp p op).max_connections = p.max_connections := by
  cases op <;>
    simp only [applyOp, ProviderConfig.try_allocate, ProviderConfig.force_allocate,
      ProviderConfig.release, incConn] <;>
    split_ifs <;> rfl

/-- One `try_allocate` or `release` step keeps the counter at most `max + 1`. -/
theorem applyOp_bound (p : ProviderConfig) (op : CounterOp) (hop : op ≠ CounterOp.forceAlloc)
    (hmax : 0 < p.max_connections)
    (hc : p.current_connections ≤ p.max_connections + 1) :
    (applyOp p op).current_connections ≤ p.max_connections + 1 := by
  cases op with
  | forceAlloc => exact absurd rfl hop
  | release =>
    simp only [applyOp, ProviderConfig.release]
    split_ifs with h
    · exact le_trans (Nat.sub_le _ _) hc
    · exact hc
  | tryAlloc g =>
    have hcm : (p.current_connections < p.max_connections ∨
        p.current_connections ≤ p.max_connections) →
        (p.current_connections + 1) % 65536 ≤ p.max_connections + 1 := by
      intro h
      exact le_trans (Nat.mod_le _ _) (by omega)
    simp only [applyOp, ProviderConfig.try_allocate]
    split_ifs with h1 h2 h3
    · exact absurd h1 (by omega)
    · exact hcm (Or.inl h3)
    · exact hcm (Or.inr (by rcases h2 with ⟨_, h⟩ | ⟨_, h⟩ <;> omega))
    · exact hc

/-- C2 (amended): with `max_connections > 0`, any sequence of `try_allocate`
and `release` steps keeps `0 ≤ current_connections ≤ max_connections + 1`
(`force_allocate` is excluded: it increments unconditionally). -/
theorem C2_try_release_invariant (p : ProviderConfig) (ops : List CounterOp)
    (hmax : 0 < p.max_connections)
    (hc : p.current_connections ≤ p.max_connections + 1)
    (hops : CounterOp.forceAlloc ∉ ops) :
    (applyOps p ops).current_connections ≤ p.max_connections + 1 := by
  induction ops generalizing p with
  | nil => simpa [applyOps] using hc
  | cons op t ih =>
    have hop : op ≠ CounterOp.forceAlloc := fun h => hops (h ▸ List.mem_cons_self op t)
    have ht : CounterOp.forceAlloc ∉ t := fun h => hops (List.mem_cons_of_mem _ h)
    have h1 : (applyOp p op).max_connections = p.max_connections := applyOp_max p op
    have h2 := applyOp_bound p op hop hmax hc
    have := ih (applyOp p op) (h1 ▸ hmax) (h1 ▸ h2) ht
    simpa [applyOps, List.foldl_cons, h1] using this

/-- C2 counterexample: with `max_connections = 1`, three `force_allocate`
steps drive the counter to `3 > max_connections + 1`, so the claimed
invariant fails for sequences that include `force_allocate`. -/
theorem C2_counterexample :
    ¬ ((applyOps (mkProvider 1 "p1" 1 1)
          [CounterOp.forceAlloc, CounterOp.forceAlloc, CounterOp.forceAlloc]).current_connections ≤
        (mkProvider 1 "p1" 1 1).max_connections + 1) := by decide

/-- Witness for C2 (amended) at a concrete provider and operation sequence. -/
theorem C2_witness :
    (applyOps (mkProvider 1 "w2" 1 2)
        [CounterOp.tryAlloc false, CounterOp.tryAlloc true, CounterOp.tryAlloc true,
         CounterOp.release]).current_connections ≤
      (mkProvider 1 "w2" 1 2).max_connections + 1 :=
  C2_try_release_invariant (mkProvider 1 "w2" 1 2) _ (by decide) (by decide) (by decide)

/-- A denied `try_allocate` leaves the provider unchanged. -/
theorem try_allocate_denied (p : ProviderConfig) (grace : Bool)
    (h : (p.try_allocate grace).1 = 3) : (p.try_allocate grace).2 = p := by
  unfold ProviderConfig.try_allocate at h ⊢
  split_ifs at h ⊢ <;> simp_all

/-- A granted `try_allocate` increments the provider. -/
theorem try_allocate_granted (p : ProviderConfig) (grace : Bool)
    (h : (p.try_allocate grace).1 ≠ 3) : (p.try_allocate grace).2 = incConn p := by
  unfold ProviderConfig.try_allocate at h ⊢
  split_ifs at h ⊢ <;> simp_all

/-- The ring loop returns `Exhausted` with the cursor reset to `0` when every
provider from the cursor to the end of the ring denies. -/
theorem acquireGroupLoop_denied_all (grace : Bool) (ps : List ProviderConfig) :
    ∀ fuel idx, fuel + idx = ps.length → 0 < fuel →
    (∀ p ∈ ps.drop idx, (p.try_allocate grace).1 = 3) →
    acquireGroupLoop grace fuel idx ps = (.Exhausted, 0, ps) := by
  intro fuel
  induction fuel with
  | zero => intro idx _ h; omega
  | succ f ih =>
    intro idx hlen _ hdeny
    have hidx : idx < ps.length := by omega
    have hget : ps.get? idx = some (ps.get ⟨idx, hidx⟩) := List.get?_eq_get hidx
    have hdrop : ps.get ⟨idx, hidx⟩ :: ps.drop (idx + 1) = ps.drop idx :=
      List.get_cons_drop ps ⟨idx, hidx⟩
    have hd : ((ps.get ⟨idx, hidx⟩).try_allocate grace).1 = 3 := by
      refine hdeny _ ?_
      rw [← hdrop]; exact List.mem_cons_self _ _
    rw [acquireGroupLoop, hget]
    simp only [hd, if_pos rfl]
    rcases Nat.lt_or_ge (idx + 1) ps.length with hlt | hge
    · rw [Nat.mod_eq_of_lt hlt]
      refine ih (idx + 1) (by omega) (by omega) ?_
      intro p hp
      refine hdeny p ?_
      rw [← hdrop]; exact List.mem_cons_of_mem _ hp
    · have hlast : idx + 1 = ps.length := by omega
      have hf : f = 0 := by omega
      rw [hlast, Nat.mod_self, hf, acquireGroupLoop]
      simp

/-- The ring loop stops at the first accepting provider `j ≥ idx`, returns its
allocation and stores `(j + 1) % len` into the cursor. -/
theorem acquireGroupLoop_first_accept (grace : Bool) (ps : List ProviderConfig) :
    ∀ fuel idx j (hj : j < ps.length), fuel + idx = ps.length → idx ≤ j →
    (∀ k (hk : k < ps.length), idx ≤ k → k < j →
        ((ps.get ⟨k, hk⟩).try_allocate grace).1 = 3) →
    ((ps.get ⟨j, hj⟩).try_allocate grace).1 ≠ 3 →
    acquireGroupLoop grace fuel idx ps =
      (allocResult ((ps.get ⟨j, hj⟩).try_allocate grace).1
         ((ps.get ⟨j, hj⟩).try_allocate grace).2,
       (j + 1) % ps.length,
       ps.set j ((ps.get ⟨j, hj⟩).try_allocate grace).2) := by
  intro fuel
  induction fuel with
  | zero => intro idx j hj h hij; omega
  | succ f ih =>
    intro idx j hj hlen hij hdeny hacc
    have hidx : idx < ps.length := by omega
    have hget : ps.get? idx = some (ps.get ⟨idx, hidx⟩) := List.get?_eq_get hidx
    rw [acquireGroupLoop, hget]
    rcases Nat.eq_or_lt_of_le hij with heq | hlt
    · subst heq
      simp only [if_neg hacc]
    · have hd : ((ps.get ⟨idx, hidx⟩).try_allocate grace).1 = 3 :=
        hdeny idx hidx le_rfl hlt
      simp only [hd, if_pos rfl]
      have hlt1 : idx + 1 < ps.length := by omega
      rw [Nat.mod_eq_of_lt hlt1]
      exact ih (idx + 1) j hj (by omega) (by omega)
        (fun k hk h1 h2 => hdeny k hk (by omega) h2) hacc

/-- C5 (amended): a `MultiProviderGroup` acquire with cursor `idx` visits only
the providers at indices `idx, idx+1, …, len-1` (providers before the cursor
are not visited in that call): it returns the allocation of the first
non-denying visited provider, storing `(j+1) % len` into the cursor, and
returns `Exhausted` exactly when every provider from the cursor onward denies
— in which case the cursor is left at `0`. -/
theorem C5_group_acquire_walk (ps : List ProviderConfig) (idx : Nat) (grace : Bool)
    (hidx : idx < ps.length) :
    ((∀ p ∈ ps.drop idx, (p.try_allocate grace).1 = 3) →
      acquire_next_provider_from_group (.MultiProviderGroup idx ps) grace =
        (.Exhausted, .MultiProviderGroup 0 ps)) ∧
    (∀ j (hj : j < ps.length), idx ≤ j →
      (∀ k (hk : k < ps.length), idx ≤ k → k < j →
          ((ps.get ⟨k, hk⟩).try_allocate grace).1 = 3) →
      ((ps.get ⟨j, hj⟩).try_allocate grace).1 ≠ 3 →
      acquire_next_provider_from_group (.MultiProviderGroup idx ps) grace =
        (allocResult ((ps.get ⟨j, hj⟩).try_allocate grace).1
           ((ps.get ⟨j, hj⟩).try_allocate grace).2,
         .MultiProviderGroup ((j + 1) % ps.length)
           (ps.set j ((ps.get ⟨j, hj⟩).try_allocate grace).2))) := by
  have hfuel : ps.length - idx + idx = ps.length := Nat.sub_add_cancel (le_of_lt hidx)
  constructor
  · intro hdeny
    rw [acquire_next_provider_from_group,
      acquireGroupLoop_denied_all grace ps (ps.length - idx) idx hfuel (by omega) hdeny]
  · intro j hj hij hdeny hacc
    rw [acquire_next_provider_from_group,
      acquireGroupLoop_first_accept grace ps (ps.length - idx) idx j hj hfuel hij hdeny hacc]

/-- C5 counterexample: in the ring `[free, full]` with the cursor at `1`, the
claimed circular walk would reach the free provider at index `0` and grant,
but the code only walks `idx..len-1`, so it returns `Exhausted` even though
member `0` does not deny. -/
theorem C5_counterexample :
    (acquire_next_provider_from_group
        (.MultiProviderGroup 1
          [mkProvider 1 "f" 1 1,
           { mkProvider 2 "g" 1 1 with current_connections := 1 }]) false).1 =
      ProviderAllocation.Exhausted ∧
    ((mkProvider 1 "f" 1 1).try_allocate false).1 ≠ 3 := by decide

/-- Witness for C5 (amended): a ring where every provider from the cursor
onward denies. -/
theorem C5_witness :
    acquire_next_provider_from_group
        (.MultiProviderGroup 1
          [mkProvider 1 "f" 1 1,
           { mkProvider 2 "g" 1 1 with current_connections := 1 }]) false =
      (ProviderAllocation.Exhausted,
       .MultiProviderGroup 0
         [mkProvider 1 "f" 1 1,
          { mkProvider 2 "g" 1 1 with current_connections := 1 }]) :=
  (C5_group_acquire_walk
      [mkProvider 1 "f" 1 1, { mkProvider 2 "g" 1 1 with current_connections := 1 }]
      1 false (by decide)).1 (by decide)

/-- Decompose a list at a position known to hold `a`; `set` replaces exactly
that occurrence. -/
theorem list_set_decomp {α : Type} (l : List α) (i : Nat) (a : α)
    (hget : l.get? i = some a) (b : α) :
    ∃ A B, l = A ++ a :: B ∧ l.set i b = A ++ b :: B := by
  induction l generalizing i with
  | nil => simp at hget
  | cons x t ih =>
    cases i with
    | zero =>
      simp only [List.get?_cons_zero, Option.some_inj] at hget
      subst hget
      exact ⟨[], t, rfl, rfl⟩
    | succ n =>
      simp only [List.get?_cons_succ] at hget
      obtain ⟨A, B, h1, h2⟩ := ih n hget
      exact ⟨x :: A, B, by simp [h1], by simp [List.set, h2]⟩

/-- `updateFirstBy` is the identity when no element carries the name. -/
theorem updateFirstBy_of_not_mem (name : String) (f : ProviderConfig → ProviderConfig)
    (l : List ProviderConfig) (h : ∀ p ∈ l, p.name ≠ name) :
    updateFirstBy name f l = l := by
  induction l with
  | nil => rfl
  | cons p t ih =>
    rw [updateFirstBy, if_neg (h p (List.mem_cons_self p t)),
      ih (fun q hq => h q (List.mem_cons_of_mem p hq))]

/-- `updateFirstBy` over an append whose left part misses the name. -/
theorem updateFirstBy_append_not_mem (name : String) (f : ProviderConfig → ProviderConfig)
    (l1 l2 : List ProviderConfig) (h : ∀ p ∈ l1, p.name ≠ name) :
    updateFirstBy name f (l1 ++ l2) = l1 ++ updateFirstBy name f l2 := by
  induction l1 with
  | nil => rfl
  | cons p t ih =>
    rw [List.cons_append, updateFirstBy, if_neg (h p (List.mem_cons_self p t)),
      ih (fun q hq => h q (List.mem_cons_of_mem p hq)), List.cons_append]

/-- `updateFirstBy` over an append whose left part contains the name. -/
theorem updateFirstBy_append_mem (name : String) (f : ProviderConfig → ProviderConfig)
    (l1 l2 : List ProviderConfig) (h : ∃ p ∈ l1, p.name = name) :
    updateFirstBy name f (l1 ++ l2) = updateFirstBy name f l1 ++ l2 := by
  induction l1 with
  | nil => simp at h
  | cons p t ih =>
    by_cases hp : p.name = name
    · rw [List.cons_append, updateFirstBy, if_pos hp, updateFirstBy, if_pos hp,
        List.cons_append]
    · have ht : ∃ q ∈ t, q.name = name := by
        rcases h with ⟨q, hq, hqn⟩
        rcases List.mem_cons.mp hq with rfl | hq2
        · exact absurd hqn hp
        · exact ⟨q, hq2, hqn⟩
      rw [List.cons_append, updateFirstBy, if_neg hp, updateFirstBy, if_neg hp,
        ih ht, List.cons_append]

/-- The flattened providers of a group list. -/
def gprovs (groups : List ProviderPriorityGroup) : List ProviderConfig :=
  (groups.map ProviderPriorityGroup.provs).flatten

/-- `provs` of a multi lineup is `gprovs` of its groups. -/
theorem provs_multi (groups : List ProviderPriorityGroup) (idx : Nat) :
    (ProviderLineup.Multi groups idx).provs = gprovs groups := rfl

/-- `gprovs` of a `set` decomposes around the replaced group's providers. -/
theorem gprovs_set_decomp (groups : List ProviderPriorityGroup) (i : Nat)
    (g : ProviderPriorityGroup) (hget : groups.get? i = some g)
    (g2 : ProviderPriorityGroup) :
    ∃ A B, gprovs groups = A ++ g.provs ++ B ∧
      gprovs (groups.set i g2) = A ++ g2.provs ++ B := by
  obtain ⟨A, B, h1, h2⟩ := list_set_decomp groups i g hget g2
  refine ⟨gprovs A, gprovs B, ?_, ?_⟩
  · rw [h1]; simp [gprovs, List.append_assoc]
  · rw [h2]; simp [gprovs, List.append_assoc]

/-- `containsName` unfolded to an existential over `provs`. -/
theorem containsName_iff (l : ProviderLineup) (name : String) :
    l.containsName name = true ↔ ∃ p ∈ l.provs, p.name = name := by
  simp [ProviderLineup.containsName, List.any_eq_true]

/-- `releaseGroups` releases exactly the first provider carrying the name. -/
theorem releaseGroups_provs (name : String) (groups : List ProviderPriorityGroup) :
    gprovs (releaseGroups name groups) =
      updateFirstBy name ProviderConfig.release (gprovs groups) := by
  induction groups with
  | nil => rfl
  | cons g rest ih =>
    cases g with
    | SingleProviderGroup p =>
      by_cases hp : p.name = name
      · rw [releaseGroups, if_pos hp]
        simp only [gprovs, List.map_cons, List.flatten_cons, ProviderPriorityGroup.provs]
        rw [List.singleton_append, List.singleton_append, updateFirstBy, if_pos hp]
      · rw [releaseGroups, if_neg hp]
        simp only [gprovs, List.map_cons, List.flatten_cons, ProviderPriorityGroup.provs]
        rw [List.singleton_append, List.singleton_append, updateFirstBy, if_neg hp]
        rw [show (List.map ProviderPriorityGroup.provs (releaseGroups name rest)).flatten
            = gprovs (releaseGroups name rest) from rfl, ih]
        rfl
    | MultiProviderGroup idx ps =>
      by_cases hp : ps.any (fun q => q.name = name)
      · have hex : ∃ q ∈ ps, q.name = name := by
          simpa [List.any_eq_true] using hp
        rw [releaseGroups, if_pos hp]
        simp only [gprovs, List.map_cons, List.flatten_cons, ProviderPriorityGroup.provs]
        rw [updateFirstBy_append_mem name _ _ _ hex]
      · have hnotex : ∀ q ∈ ps, q.name ≠ name := by
          intro q hq he
          exact hp (List.any_eq_true.mpr ⟨q, hq, by simp [he]⟩)
        rw [releaseGroups, if_neg hp]
        simp only [gprovs, List.map_cons, List.flatten_cons, ProviderPriorityGroup.provs]
        rw [updateFirstBy_append_not_mem name _ _ _ hnotex]
        rw [show (List.map ProviderPriorityGroup.provs (releaseGroups name rest)).flatten
            = gprovs (releaseGroups name rest) from rfl, ih]
        rfl

/-- `ProviderLineup::release` releases exactly the first provider with the
name inside the lineup. -/
theorem lineup_release_provs (l : ProviderLineup) (name : String) :
    (l.release name).provs = updateFirstBy name ProviderConfig.release l.provs := by
  cases l with
  | Single p =>
    by_cases hp : p.name = name
    · rw [ProviderLineup.release]
      simp only [if_pos hp, ProviderLineup.provs]
      rw [updateFirstBy, if_pos hp]
    · rw [ProviderLineup.release]
      simp only [if_neg hp, ProviderLineup.provs]
      rw [updateFirstBy, if_neg hp]
      rfl
  | Multi groups idx =>
    rw [ProviderLineup.release]
    rw [provs_multi, provs_multi, releaseGroups_provs]

/-- `ActiveProviderManager::release_connection` releases exactly the first
provider carrying the name, in `get_provider_config` order. -/
theorem release_connection_provs (name : String) (lineups : List ProviderLineup) :
    provsM (release_connection name lineups) =
      updateFirstBy name ProviderConfig.release (provsM lineups) := by
  induction lineups with
  | nil => rfl
  | cons l rest ih =>
    by_cases hc : l.containsName name
    · have hex : ∃ p ∈ l.provs, p.name = name := (containsName_iff l name).mp hc
      rw [release_connection, if_pos hc]
      show (l.release name).provs ++ provsM rest =
        updateFirstBy name ProviderConfig.release (l.provs ++ provsM rest)
      rw [updateFirstBy_append_mem name _ _ _ hex, lineup_release_provs]
    · have hnex : ∀ p ∈ l.provs, p.name ≠ name := by
        intro p hp he
        exact hc ((containsName_iff l name).mpr ⟨p, hp, he⟩)
      rw [release_connection, if_neg hc]
      show l.provs ++ provsM (release_connection name rest) =
        updateFirstBy name ProviderConfig.release (l.provs ++ provsM rest)
      rw [updateFirstBy_append_not_mem name _ _ _ hnex, ih]

/-- A lineup without the name is untouched by `release_connection`. -/
theorem release_connection_not_found (name : String) (lineups : List ProviderLineup)
    (h : ∀ p ∈ provsM lineups, p.name ≠ name) :
    release_connection name lineups = lineups := by
  induction lineups with
  | nil => rfl
  | cons l rest ih =>
    have hmem : ∀ p ∈ l.provs, p.name ≠ name := by
      intro p hp
      refine h p ?_
      show p ∈ (l.provs ++ provsM rest)
      exact List.mem_append_left _ hp
    have hc : ¬ l.containsName name = true := by
      intro hc
      rcases (containsName_iff l name).mp hc with ⟨p, hp, he⟩
      exact hmem p hp he
    rw [release_connection, if_neg hc]
    rw [ih (fun p hp => h p (List.mem_append_right _ hp))]

/-- C9: `release` decrements a positive counter and is a no-op at zero, and
`release_connection` with a name matching no provider leaves the manager
(and so every counter) unchanged. -/
theorem C9_release_total (p : ProviderConfig) (lineups : List ProviderLineup)
    (name : String) :
    (p.current_connections = 0 → p.release = p) ∧
    (0 < p.current_connections →
      p.release = { p with current_connections := p.current_connections - 1 }) ∧
    ((∀ q ∈ provsM lineups, q.name ≠ name) →
      release_connection name lineups = lineups) := by
  refine ⟨?_, ?_, release_connection_not_found name lineups⟩
  · intro h; rw [ProviderConfig.release, if_neg (by omega)]
  · intro h; rw [ProviderConfig.release, if_pos h]

/-- Witness for C9 at a concrete provider and manager. -/
theorem C9_witness :
    (mkProvider 1 "p1" 1 2).release = mkProvider 1 "p1" 1 2 ∧
    release_connection "nosuch" [ProviderLineup.Single (mkProvider 1 "p1" 1 2)] =
      [ProviderLineup.Single (mkProvider 1 "p1" 1 2)] := by
  constructor
  · exact (C9_release_total (mkProvider 1 "p1" 1 2)
      [ProviderLineup.Single (mkProvider 1 "p1" 1 2)] "nosuch").1 (by decide)
  · exact (C9_release_total (mkProvider 1 "p1" 1 2)
      [ProviderLineup.Single (mkProvider 1 "p1" 1 2)] "nosuch").2.2 (by decide)

/-- Replacing a group by one with the same providers keeps `gprovs`. -/
theorem gprovs_set_same (groups : List ProviderPriorityGroup) (i : Nat)
    (g : ProviderPriorityGroup) (hget : groups.get? i = some g)
    (g2 : ProviderPriorityGroup) (hp : g2.provs = g.provs) :
    gprovs (groups.set i g2) = gprovs groups := by
  obtain ⟨A, B, h1, h2⟩ := gprovs_set_decomp groups i g hget g2
  rw [h2, h1, hp]

/-- A group probe never changes the providers (only its cursor). -/
theorem get_next_group_provs (g : ProviderPriorityGroup) (grace : Bool) :
    (get_next_provider_from_group g grace).2.provs = g.provs := by
  cases g with
  | SingleProviderGroup p => rfl
  | MultiProviderGroup idx ps => rfl

/-- The lineup probe walk never changes the providers. -/
theorem mplGetNextGo_provs : ∀ fuel i curIdx groups,
    gprovs (mplGetNextGo fuel i curIdx groups).2.2 = gprovs groups := by
  intro fuel
  induction fuel with
  | zero => intro i c g; rfl
  | succ f ih =>
    intro i curIdx groups
    cases hget : groups.get? i with
    | none => rw [mplGetNextGo, hget]
    | some g =>
      have hr2 : ∀ r2 : Option ProviderConfig × ProviderPriorityGroup,
          r2.2.provs = g.provs →
          gprovs ((match r2.1 with
            | none => mplGetNextGo f (i + 1) curIdx (groups.set i r2.2)
            | some cfg => (some cfg,
                if r2.2.is_exhausted then (i + 1) % (groups.set i r2.2).length else curIdx,
                groups.set i r2.2)) :
            Option ProviderConfig × Nat × List ProviderPriorityGroup).2.2 =
            gprovs groups := by
        intro r2 hp
        cases hc : r2.1 with
        | none =>
          show gprovs (mplGetNextGo f (i + 1) curIdx (groups.set i r2.2)).2.2 = _
          rw [ih, gprovs_set_same groups i g hget r2.2 hp]
        | some cfg =>
          show gprovs (groups.set i r2.2) = _
          rw [gprovs_set_same groups i g hget r2.2 hp]
      rw [mplGetNextGo, hget]
      by_cases hn : (get_next_provider_from_group g false).1.isNone
      · simp only [hn, if_true]
        exact hr2 _ (by rw [get_next_group_provs, get_next_group_provs])
      · simp only [hn, if_false]
        exact hr2 _ (get_next_group_provs g false)

/-- `ProviderLineup::get_next` never changes the providers. -/
theorem lineup_get_next_provs (l : ProviderLineup) :
    (l.get_next).2.provs = l.provs := by
  cases l with
  | Single p => rfl
  | Multi groups idx =>
    have h := mplGetNextGo_provs (groups.length - idx) idx idx groups
    simpa [ProviderLineup.get_next, provs_multi] using h

/-- C8: `get_next_provider` (the redirect peek) leaves every provider record
— in particular every `current_connections` counter — unchanged, whether or
not a candidate is returned; only the round-robin cursors may advance. -/
theorem C8_get_next_preserves_counters (name : String) (lineups : List ProviderLineup) :
    provsM (get_next_provider name lineups).2 = provsM lineups := by
  induction lineups with
  | nil => rfl
  | cons l rest ih =>
    by_cases hc : l.containsName name
    · rw [get_next_provider, if_pos hc]
      show (l.get_next).2.provs ++ provsM rest = l.provs ++ provsM rest
      rw [lineup_get_next_provs]
    · rw [get_next_provider, if_neg hc]
      show l.provs ++ provsM (get_next_provider name rest).2 = l.provs ++ provsM rest
      rw [ih]

/-- The allocation granted a slot (`Available` or `GracePeriod`) for `cfg`. -/
def NEx (a : ProviderAllocation) (cfg : ProviderConfig) : Prop :=
  a = .Available cfg ∨ a = .GracePeriod cfg

/-- `l2` is `l` with exactly one occurrence incremented, and `cfg` is the
incremented record. -/
def IncOne (cfg : ProviderConfig) (l l2 : List ProviderConfig) : Prop :=
  ∃ A p B, l = A ++ p :: B ∧ l2 = A ++ incConn p :: B ∧ cfg = incConn p

/-- `try_allocate` only returns the codes 1, 2 and 3. -/
theorem try_allocate_code (p : ProviderConfig) (grace : Bool) :
    (p.try_allocate grace).1 = 1 ∨ (p.try_allocate grace).1 = 2 ∨
      (p.try_allocate grace).1 = 3 := by
  unfold ProviderConfig.try_allocate
  split_ifs <;> simp

/-- A non-denied code wraps into a slot-granting allocation for the updated
provider. -/
theorem allocResult_nex (p : ProviderConfig) (grace : Bool)
    (h : (p.try_allocate grace).1 ≠ 3) :
    NEx (allocResult (p.try_allocate grace).1 (p.try_allocate grace).2)
      (p.try_allocate grace).2 := by
  rcases try_allocate_code p grace with h1 | h1 | h1
  · left; rw [allocResult, if_pos h1]
  · right; rw [allocResult, h1]; simp
  · exact absurd h1 h

/-- A slot-granting allocation is not `Exhausted`. -/
theorem nex_ne_exhausted {a : ProviderAllocation} {cfg : ProviderConfig}
    (h : NEx a cfg) : a ≠ .Exhausted := by
  rcases h with h | h <;> subst h <;> intro hc <;> cases hc

/-- `IncOne` lifts over surrounding context. -/
theorem IncOne.liftAppend {cfg : ProviderConfig} {m m2 : List ProviderConfig}
    (A B : List ProviderConfig) (h : IncOne cfg m m2) :
    IncOne cfg (A ++ m ++ B) (A ++ m2 ++ B) := by
  obtain ⟨X, p, Y, h1, h2, h3⟩ := h
  exact ⟨A ++ X, p, Y ++ B, by simp [h1, List.append_assoc],
    by simp [h2, List.append_assoc], h3⟩

/-- `IncOne` lifts over a left context. -/
theorem IncOne.consLeft {cfg : ProviderConfig} {m m2 : List ProviderConfig}
    (A : List ProviderConfig) (h : IncOne cfg m m2) :
    IncOne cfg (A ++ m) (A ++ m2) := by
  have h2 := h.liftAppend A []
  simpa using h2

/-- `IncOne` lifts over a right context. -/
theorem IncOne.appendRight {cfg : ProviderConfig} {m m2 : List ProviderConfig}
    (B : List ProviderConfig) (h : IncOne cfg m m2) :
    IncOne cfg (m ++ B) (m2 ++ B) := by
  have h2 := h.liftAppend [] B
  simpa using h2

/-- The ring loop either denies (leaving the ring untouched) or grants,
incrementing exactly one provider — the one carried by the allocation. -/
theorem acquireGroupLoop_shape (grace : Bool) : ∀ fuel idx ps,
    ((acquireGroupLoop grace fuel idx ps).1 = .Exhausted ∧
      (acquireGroupLoop grace fuel idx ps).2.2 = ps) ∨
    (∃ cfg, NEx (acquireGroupLoop grace fuel idx ps).1 cfg ∧
      IncOne cfg ps (acquireGroupLoop grace fuel idx ps).2.2) := by
  intro fuel
  induction fuel with
  | zero => intro idx ps; left; exact ⟨rfl, rfl⟩
  | succ f ih =>
    intro idx ps
    cases hget : ps.get? idx with
    | none => rw [acquireGroupLoop, hget]; left; exact ⟨rfl, rfl⟩
    | some p =>
      have hstep : acquireGroupLoop grace (f + 1) idx ps =
          if (p.try_allocate grace).1 = 3 then
            acquireGroupLoop grace f ((idx + 1) % ps.length) ps
          else (allocResult (p.try_allocate grace).1 (p.try_allocate grace).2,
            (idx + 1) % ps.length, ps.set idx (p.try_allocate grace).2) := by
        rw [acquireGroupLoop, hget]
      rw [hstep]
      by_cases hc : (p.try_allocate grace).1 = 3
      · rw [if_pos hc]
        exact ih ((idx + 1) % ps.length) ps
      · rw [if_neg hc]
        right
        obtain ⟨A, B, h1, h2⟩ := list_set_decomp ps idx p hget (p.try_allocate grace).2
        refine ⟨(p.try_allocate grace).2, allocResult_nex p grace hc, A, p, B, h1, ?_, ?_⟩
        · rw [h2, try_allocate_granted p grace hc]
        · rw [try_allocate_granted p grace hc]

/-- A group acquire either denies with its providers unchanged or grants,
incrementing exactly one of its providers. -/
theorem acquire_group_shape (g : ProviderPriorityGroup) (grace : Bool) :
    ((acquire_next_provider_from_group g grace).1 = .Exhausted ∧
      (acquire_next_provider_from_group g grace).2.provs = g.provs) ∨
    (∃ cfg, NEx (acquire_next_provider_from_group g grace).1 cfg ∧
      IncOne cfg g.provs (acquire_next_provider_from_group g grace).2.provs) := by
  cases g with
  | SingleProviderGroup p =>
    by_cases hc : (p.try_allocate grace).1 = 3
    · left
      constructor
      · show allocResult (p.try_allocate grace).1 (p.try_allocate grace).2 = .Exhausted
        rw [hc, allocResult]
        simp
      · show [(p.try_allocate grace).2] = [p]
        rw [try_allocate_denied p grace hc]
    · right
      refine ⟨(p.try_allocate grace).2, allocResult_nex p grace hc, [], p, [], rfl, ?_, ?_⟩
      · show [(p.try_allocate grace).2] = [] ++ incConn p :: []
        rw [try_allocate_granted p grace hc]
        rfl
      · exact try_allocate_granted p grace hc
  | MultiProviderGroup idx ps =>
    rcases acquireGroupLoop_shape grace (ps.length - idx) idx ps with ⟨h1, h2⟩ | ⟨cfg, hn, hi⟩
    · left; exact ⟨h1, h2⟩
    · right; exact ⟨cfg, hn, hi⟩

/-- The no-grace-then-grace block either exhausts with the group's providers
unchanged or grants, incrementing exactly one of them. -/
theorem acquireGroupWithGrace_shape (g : ProviderPriorityGroup) :
    ((acquireGroupWithGrace g).1 = .Exhausted ∧
      (acquireGroupWithGrace g).2.provs = g.provs) ∨
    (∃ cfg, NEx (acquireGroupWithGrace g).1 cfg ∧
      IncOne cfg g.provs (acquireGroupWithGrace g).2.provs) := by
  by_cases h1 : (acquire_next_provider_from_group g false).1 = .Exhausted
  · have hg1p : (acquire_next_provider_from_group g false).2.provs = g.provs := by
      rcases acquire_group_shape g false with ⟨_, h2⟩ | ⟨cfg, hn, _⟩
      · exact h2
      · exact absurd h1 (nex_ne_exhausted hn)
    have hstep : acquireGroupWithGrace g =
        acquire_next_provider_from_group (acquire_next_provider_from_group g false).2 true := by
      rw [acquireGroupWithGrace]
      exact if_pos h1
    rw [hstep]
    rcases acquire_group_shape (acquire_next_provider_from_group g false).2 true with
      ⟨h2a, h2b⟩ | ⟨cfg, hn, hi⟩
    · left; exact ⟨h2a, h2b.trans hg1p⟩
    · right
      rw [hg1p] at hi
      exact ⟨cfg, hn, hi⟩
  · have hstep : acquireGroupWithGrace g = acquire_next_provider_from_group g false := by
      rw [acquireGroupWithGrace]
      exact if_neg h1
    rw [hstep]
    rcases acquire_group_shape g false with ⟨h2a, _⟩ | ⟨cfg, hn, hi⟩
    · exact absurd h2a h1
    · exact Or.inr ⟨cfg, hn, hi⟩

/-- The lineup walk either exhausts with all providers unchanged or grants,
incrementing exactly one provider of the lineup. -/
theorem mplAcquireGo_shape : ∀ fuel i curIdx groups,
    ((mplAcquireGo fuel i curIdx groups).1 = .Exhausted ∧
      gprovs (mplAcquireGo fuel i curIdx groups).2.2 = gprovs groups) ∨
    (∃ cfg, NEx (mplAcquireGo fuel i curIdx groups).1 cfg ∧
      IncOne cfg (gprovs groups) (gprovs (mplAcquireGo fuel i curIdx groups).2.2)) := by
  intro fuel
  induction fuel with
  | zero => intro i c groups; left; exact ⟨rfl, rfl⟩
  | succ f ih =>
    intro i curIdx groups
    cases hget : groups.get? i with
    | none => rw [mplAcquireGo, hget]; left; exact ⟨rfl, rfl⟩
    | some g =>
      have hstep : mplAcquireGo (f + 1) i curIdx groups =
          (match (acquireGroupWithGrace g).1 with
           | .Exhausted =>
             mplAcquireGo f (i + 1) curIdx (groups.set i (acquireGroupWithGrace g).2)
           | alloc => (alloc,
               if (acquireGroupWithGrace g).2.is_exhausted then
                 (i + 1) % (groups.set i (acquireGroupWithGrace g).2).length
               else curIdx,
               groups.set i (acquireGroupWithGrace g).2)) := by
        rw [mplAcquireGo, hget]
      rw [hstep]
      rcases acquireGroupWithGrace_shape g with ⟨h1, h2⟩ | ⟨cfg, hn, hi⟩
      · rw [h1]
        have hset := gprovs_set_same groups i g hget (acquireGroupWithGrace g).2 h2
        rcases ih (i + 1) curIdx (groups.set i (acquireGroupWithGrace g).2) with
          ⟨ha, hb⟩ | ⟨cfg, hn2, hi2⟩
        · left; exact ⟨ha, hb.trans hset⟩
        · right
          rw [hset] at hi2
          exact ⟨cfg, hn2, hi2⟩
      · obtain ⟨A, B, hA, hB⟩ := gprovs_set_decomp groups i g hget (acquireGroupWithGrace g).2
        have hlift := hi.liftAppend A B
        rw [← hA, ← hB] at hlift
        rcases hn with h2 | h2 <;> rw [h2]
        · exact Or.inr ⟨cfg, Or.inl rfl, hlift⟩
        · exact Or.inr ⟨cfg, Or.inr rfl, hlift⟩

/-- `ProviderLineup::acquire` either exhausts with all providers unchanged or
grants, incrementing exactly one provider. -/
theorem lineup_acquire_shape (l : ProviderLineup) :
    ((l.acquire).1 = .Exhausted ∧ (l.acquire).2.provs = l.provs) ∨
    (∃ cfg, NEx (l.acquire).1 cfg ∧ IncOne cfg l.provs (l.acquire).2.provs) := by
  cases l with
  | Single p =>
    by_cases hc : (p.try_allocate true).1 = 3
    · left
      constructor
      · show allocResult (p.try_allocate true).1 (p.try_allocate true).2 = .Exhausted
        rw [hc, allocResult]
        simp
      · show [(p.try_allocate true).2] = [p]
        rw [try_allocate_denied p true hc]
    · right
      refine ⟨(p.try_allocate true).2, allocResult_nex p true hc, [], p, [], rfl, ?_, ?_⟩
      · show [(p.try_allocate true).2] = [] ++ incConn p :: []
        rw [try_allocate_granted p true hc]
        rfl
      · exact try_allocate_granted p true hc
  | Multi groups idx =>
    rcases mplAcquireGo_shape (groups.length - idx) idx idx groups with
      ⟨h1, h2⟩ | ⟨cfg, hn, hi⟩
    · left; exact ⟨h1, h2⟩
    · right; exact ⟨cfg, hn, hi⟩

/-- `acquire_connection` either exhausts with all providers unchanged or
grants, incrementing exactly one provider of the manager. -/
theorem acquire_connection_shape (name : String) (lineups : List ProviderLineup) :
    ((acquire_connection name lineups).1 = .Exhausted ∧
      provsM (acquire_connection name lineups).2 = provsM lineups) ∨
    (∃ cfg, NEx (acquire_connection name lineups).1 cfg ∧
      IncOne cfg (provsM lineups) (provsM (acquire_connection name lineups).2)) := by
  induction lineups with
  | nil => left; exact ⟨rfl, rfl⟩
  | cons l rest ih =>
    by_cases hc : l.containsName name
    · rw [acquire_connection, if_pos hc]
      rcases lineup_acquire_shape l with ⟨h1, h2⟩ | ⟨cfg, hn, hi⟩
      · left
        refine ⟨h1, ?_⟩
        show (l.acquire).2.provs ++ provsM rest = l.provs ++ provsM rest
        rw [h2]
      · right
        refine ⟨cfg, hn, ?_⟩
        show IncOne cfg (l.provs ++ provsM rest) ((l.acquire).2.provs ++ provsM rest)
        exact hi.appendRight _
    · rw [acquire_connection, if_neg hc]
      rcases ih with ⟨h1, h2⟩ | ⟨cfg, hn, hi⟩
      · left
        refine ⟨h1, ?_⟩
        show l.provs ++ provsM (acquire_connection name rest).2 = l.provs ++ provsM rest
        rw [h2]
      · right
        refine ⟨cfg, hn, ?_⟩
        show IncOne cfg (l.provs ++ provsM rest)
          (l.provs ++ provsM (acquire_connection name rest).2)
        exact hi.consLeft _

/-- `incConn` keeps the name. -/
theorem incConn_name (p : ProviderConfig) : (incConn p).name = p.name := rfl

/-- With globally distinct names, an `IncOne` step is exactly `updateFirstBy`
with `incConn` at the allocated provider's name. -/
theorem IncOne_to_update (cfg : ProviderConfig) (L L2 : List ProviderConfig)
    (h : IncOne cfg L L2) (hnd : (L.map (·.name)).Nodup) :
    L2 = updateFirstBy cfg.name incConn L := by
  obtain ⟨A, p, B, h1, h2, h3⟩ := h
  subst h3
  rw [h1] at hnd ⊢
  rw [h2]
  have hA : ∀ q ∈ A, q.name ≠ (incConn p).name := by
    rw [List.map_append, List.map_cons] at hnd
    rcases List.nodup_append.mp hnd with ⟨_, _, hdisj⟩
    intro q hq he
    rw [incConn_name] at he
    exact hdisj (List.mem_map_of_mem _ hq) (by rw [he]; exact List.mem_cons_self _ _)
  rw [updateFirstBy_append_not_mem _ _ _ _ hA, updateFirstBy,
    if_pos (incConn_name p).symm]

/-- Releasing an increment restores the provider, below the u16 wrap. -/
theorem release_incConn (p : ProviderConfig) (hs : p.current_connections + 1 < 65536) :
    (incConn p).release = p := by
  have h1 : incConn p = { p with current_connections := p.current_connections + 1 } := by
    rw [incConn, Nat.mod_eq_of_lt hs]
  rw [h1, ProviderConfig.release]
  simp

/-- Releasing the name just incremented undoes the increment. -/
theorem release_after_inc (name : String) (L : List ProviderConfig)
    (hsmall : ∀ q ∈ L, q.current_connections + 1 < 65536) :
    updateFirstBy name ProviderConfig.release (updateFirstBy name incConn L) = L := by
  induction L with
  | nil => rfl
  | cons p t ih =>
    by_cases hp : p.name = name
    · rw [updateFirstBy, if_pos hp, updateFirstBy,
        if_pos (by rw [incConn_name]; exact hp),
        release_incConn p (hsmall p (List.mem_cons_self p t))]
    · rw [updateFirstBy, if_neg hp, updateFirstBy, if_neg hp,
        ih (fun q hq => hsmall q (List.mem_cons_of_mem p hq))]

/-- C4: under distinct provider names and counters below the u16 wrap,
dropping a guard returned `Available` or `GracePeriod` by
`acquire_connection` (which schedules `release_connection` on the chosen
provider's name) decrements that provider's counter exactly once, restoring
every provider record to its pre-acquire value; dropping an `Exhausted` guard
changes nothing at all. -/
theorem C4_guard_drop_roundtrip (name : String) (lineups : List ProviderLineup)
    (hnd : ((provsM lineups).map (·.name)).Nodup)
    (hsmall : ∀ q ∈ provsM lineups, q.current_connections + 1 < 65536) :
    (∀ cfg, ((acquire_connection name lineups).1 = .Available cfg ∨
             (acquire_connection name lineups).1 = .GracePeriod cfg) →
      provsM (guardDrop (acquire_connection name lineups).1
        (acquire_connection name lineups).2) = provsM lineups) ∧
    ((acquire_connection name lineups).1 = .Exhausted →
      guardDrop (acquire_connection name lineups).1
        (acquire_connection name lineups).2 = (acquire_connection name lineups).2) := by
  constructor
  · intro cfg hcfg
    rcases acquire_connection_shape name lineups with ⟨h1, _⟩ | ⟨cfg2, hn, hi⟩
    · rcases hcfg with h | h <;> rw [h] at h1 <;> cases h1
    · have hc2 : cfg2 = cfg := by
        rcases hn with h2 | h2 <;> rcases hcfg with h | h <;>
          simpa using h2.symm.trans h
      subst hc2
      rcases hcfg with h | h <;> rw [h]
      all_goals
        show provsM (release_connection cfg2.name (acquire_connection name lineups).2) =
          provsM lineups
        rw [release_connection_provs,
          IncOne_to_update cfg2 (provsM lineups) _ hi hnd,
          release_after_inc cfg2.name (provsM lineups) hsmall]
  · intro h
    rw [h]
    rfl

/-- Witness for C4 at a concrete one-provider manager. -/
theorem C4_witness :
    provsM (guardDrop
        (acquire_connection "p1" [ProviderLineup.Single (mkProvider 1 "p1" 1 2)]).1
        (acquire_connection "p1" [ProviderLineup.Single (mkProvider 1 "p1" 1 2)]).2) =
      provsM [ProviderLineup.Single (mkProvider 1 "p1" 1 2)] :=
  (C4_guard_drop_roundtrip "p1" [ProviderLineup.Single (mkProvider 1 "p1" 1 2)]
      (by decide) (by decide)).1 (incConn (mkProvider 1 "p1" 1 2)) (Or.inl (by decide))

/-- `forceFirst` on a ring containing the name force-allocates its first
match and returns the incremented record. -/
theorem forceFirst_found (name : String) (ps : List ProviderConfig)
    (h : ∃ p ∈ ps, p.name = name) :
    ∃ cfg, (forceFirst name ps).1 = some cfg ∧ cfg.name = name ∧
      (forceFirst name ps).2 = updateFirstBy name ProviderConfig.force_allocate ps := by
  induction ps with
  | nil => simp at h
  | cons p t ih =>
    by_cases hp : p.name = name
    · refine ⟨p.force_allocate, ?_, hp, ?_⟩
      · rw [forceFirst, if_pos hp]
      · rw [forceFirst, if_pos hp, updateFirstBy, if_pos hp]
    · have ht : ∃ q ∈ t, q.name = name := by
        rcases h with ⟨q, hq, he⟩
        rcases List.mem_cons.mp hq with rfl | hq2
        · exact absurd he hp
        · exact ⟨q, hq2, he⟩
      obtain ⟨cfg, h1, h2, h3⟩ := ih ht
      refine ⟨cfg, ?_, h2, ?_⟩
      · rw [forceFirst, if_neg hp]
        exact h1
      · rw [forceFirst, if_neg hp, updateFirstBy, if_neg hp]
        show p :: (forceFirst name t).2 = p :: updateFirstBy name ProviderConfig.force_allocate t
        rw [h3]

/-- `forceGroups` on groups containing the name force-allocates the first
match in `get_provider_config` order. -/
theorem forceGroups_found (name : String) (groups : List ProviderPriorityGroup)
    (h : ∃ p ∈ gprovs groups, p.name = name) :
    ∃ cfg, (forceGroups name groups).1 = some cfg ∧ cfg.name = name ∧
      gprovs (forceGroups name groups).2 =
        updateFirstBy name ProviderConfig.force_allocate (gprovs groups) := by
  induction groups with
  | nil => simp [gprovs] at h
  | cons g rest ih =>
    cases g with
    | SingleProviderGroup p =>
      by_cases hp : p.name = name
      · refine ⟨p.force_allocate, ?_, hp, ?_⟩
        · rw [forceGroups, if_pos hp]
        · rw [forceGroups, if_pos hp]
          show p.force_allocate :: gprovs rest =
            updateFirstBy name ProviderConfig.force_allocate (p :: gprovs rest)
          rw [updateFirstBy, if_pos hp]
      · have ht : ∃ q ∈ gprovs rest, q.name = name := by
          rcases h with ⟨q, hq, he⟩
          rcases List.mem_cons.mp hq with rfl | hq2
          · exact absurd he hp
          · exact ⟨q, hq2, he⟩
        obtain ⟨cfg, h1, h2, h3⟩ := ih ht
        refine ⟨cfg, ?_, h2, ?_⟩
        · rw [forceGroups, if_neg hp]
          exact h1
        · rw [forceGroups, if_neg hp]
          show p :: gprovs (forceGroups name rest).2 =
            updateFirstBy name ProviderConfig.force_allocate (p :: gprovs rest)
          rw [updateFirstBy, if_neg hp, h3]
    | MultiProviderGroup idx ps =>
      by_cases hany : ps.any (fun q => q.name = name)
      · have hex : ∃ q ∈ ps, q.name = name := by
          simpa [List.any_eq_true] using hany
        obtain ⟨cfg, f1, f2, f3⟩ := forceFirst_found name ps hex
        refine ⟨cfg, ?_, f2, ?_⟩
        · rw [forceGroups, if_pos hany]
          exact f1
        · rw [forceGroups, if_pos hany]
          show (forceFirst name ps).2 ++ gprovs rest =
            updateFirstBy name ProviderConfig.force_allocate (ps ++ gprovs rest)
          rw [updateFirstBy_append_mem name _ _ _ hex, f3]
      · have hnone : ∀ q ∈ ps, q.name ≠ name := by
          intro q hq he
          exact hany (List.any_eq_true.mpr ⟨q, hq, by simp [he]⟩)
        have ht : ∃ q ∈ gprovs rest, q.name = name := by
          rcases h with ⟨q, hq, he⟩
          rcases List.mem_append.mp hq with hq2 | hq2
          · exact absurd he (hnone q hq2)
          · exact ⟨q, hq2, he⟩
        obtain ⟨cfg, h1, h2, h3⟩ := ih ht
        refine ⟨cfg, ?_, h2, ?_⟩
        · rw [forceGroups, if_neg hany]
          exact h1
        · rw [forceGroups, if_neg hany]
          show ps ++ gprovs (forceGroups name rest).2 =
            updateFirstBy name ProviderConfig.force_allocate (ps ++ gprovs rest)
          rw [updateFirstBy_append_not_mem name _ _ _ hnone, h3]

/-- `ProviderLineup.forceAllocate` on a lineup containing the name
force-allocates the first match. -/
theorem lineup_force_found (l : ProviderLineup) (name : String)
    (h : ∃ p ∈ l.provs, p.name = name) :
    ∃ cfg, (l.forceAllocate name).1 = some cfg ∧ cfg.name = name ∧
      (l.forceAllocate name).2.provs =
        updateFirstBy name ProviderConfig.force_allocate l.provs := by
  cases l with
  | Single p =>
    have hp : p.name = name := by
      rcases h with ⟨q, hq, he⟩
      rcases List.mem_singleton.mp hq with rfl
      exact he
    refine ⟨p.force_allocate, ?_, hp, ?_⟩
    · rw [ProviderLineup.forceAllocate, if_pos hp]
    · rw [ProviderLineup.forceAllocate, if_pos hp]
      show [p.force_allocate] = updateFirstBy name ProviderConfig.force_allocate [p]
      rw [updateFirstBy, if_pos hp]
  | Multi groups idx =>
    rw [provs_multi] at h
    obtain ⟨cfg, h1, h2, h3⟩ := forceGroups_found name groups h
    exact ⟨cfg, h1, h2, h3⟩

/-- C7: `force_exact_acquire_connection` with the name of a configured
provider always returns an `Available` guard — never Grace or Exhausted,
whatever the counters — incrementing exactly that provider (first match in
`get_provider_config` order); with an unknown name it returns `Exhausted`
and changes nothing. -/
theorem C7_force_exact (name : String) (lineups : List ProviderLineup) :
    ((∃ q ∈ provsM lineups, q.name = name) →
      ∃ cfg, (force_exact_acquire_connection name lineups).1 = .Available cfg ∧
        cfg.name = name ∧
        provsM (force_exact_acquire_connection name lineups).2 =
          updateFirstBy name ProviderConfig.force_allocate (provsM lineups)) ∧
    ((∀ q ∈ provsM lineups, q.name ≠ name) →
      force_exact_acquire_connection name lineups = (.Exhausted, lineups)) := by
  induction lineups with
  | nil =>
    constructor
    · intro h; simp [provsM] at h
    · intro _; rfl
  | cons l rest ih =>
    constructor
    · intro h
      by_cases hc : l.containsName name
      · have hex : ∃ p ∈ l.provs, p.name = name := (containsName_iff l name).mp hc
        obtain ⟨cfg, f1, f2, f3⟩ := lineup_force_found l name hex
        refine ⟨cfg, ?_, f2, ?_⟩
        · rw [force_exact_acquire_connection, if_pos hc]
          show (match (l.forceAllocate name).1 with
            | some c => ProviderAllocation.Available c
            | none => ProviderAllocation.Exhausted) = ProviderAllocation.Available cfg
          rw [f1]
        · rw [force_exact_acquire_connection, if_pos hc]
          show (l.forceAllocate name).2.provs ++ provsM rest =
            updateFirstBy name ProviderConfig.force_allocate (l.provs ++ provsM rest)
          rw [updateFirstBy_append_mem name _ _ _ hex, f3]
      · have hrest : ∃ q ∈ provsM rest, q.name = name := by
          rcases h with ⟨q, hq, he⟩
          rcases List.mem_append.mp hq with hq2 | hq2
          · exact absurd ((containsName_iff l name).mpr ⟨q, hq2, he⟩) hc
          · exact ⟨q, hq2, he⟩
        have hnex : ∀ p ∈ l.provs, p.name ≠ name := by
          intro p hp he
          exact hc ((containsName_iff l name).mpr ⟨p, hp, he⟩)
        obtain ⟨cfg, h1, h2, h3⟩ := ih.1 hrest
        refine ⟨cfg, ?_, h2, ?_⟩
        · rw [force_exact_acquire_connection, if_neg hc]
          exact h1
        · rw [force_exact_acquire_connection, if_neg hc]
          show l.provs ++ provsM (force_exact_acquire_connection name rest).2 =
            updateFirstBy name ProviderConfig.force_allocate (l.provs ++ provsM rest)
          rw [updateFirstBy_append_not_mem name _ _ _ hnex, h3]
    · intro h
      have hc : ¬ l.containsName name = true := by
        intro hcc
        rcases (containsName_iff l name).mp hcc with ⟨q, hq, he⟩
        exact h q (List.mem_append_left _ hq) he
      rw [force_exact_acquire_connection, if_neg hc,
        ih.2 (fun q hq => h q (List.mem_append_right _ hq))]

/-- Witness for C7: a provider already above its limit (counter 5, max 1)
still yields an `Available` forced guard. -/
theorem C7_witness :
    ∃ cfg, (force_exact_acquire_connection "p1"
        [ProviderLineup.Single
          { mkProvider 1 "p1" 1 1 with current_connections := 5 }]).1 =
        ProviderAllocation.Available cfg ∧ cfg.name = "p1" ∧
      provsM (force_exact_acquire_connection "p1"
        [ProviderLineup.Single
          { mkProvider 1 "p1" 1 1 with current_connections := 5 }]).2 =
        updateFirstBy "p1" ProviderConfig.force_allocate
          (provsM [ProviderLineup.Single
            { mkProvider 1 "p1" 1 1 with current_connections := 5 }]) :=
  (C7_force_exact "p1"
      [ProviderLineup.Single
        { mkProvider 1 "p1" 1 1 with current_connections := 5 }]).1 (by decide)

/-- C10: `acquire_connection` resolves its argument against provider (and
alias) names: when some provider anywhere carries the name, the first lineup
(in insertion order) containing such a provider runs its full `acquire`;
only a name matching no provider yields the bare `Exhausted` guard with the
manager untouched. -/
theorem C10_acquire_by_provider_name (name : String) (lineups : List ProviderLineup) :
    ((∃ q ∈ provsM lineups, q.name = name) →
      ∃ pre l post, lineups = pre ++ l :: post ∧
        (∀ l2 ∈ pre, ∀ q ∈ l2.provs, q.name ≠ name) ∧
        (∃ q ∈ l.provs, q.name = name) ∧
        acquire_connection name lineups = ((l.acquire).1, pre ++ (l.acquire).2 :: post)) ∧
    ((∀ q ∈ provsM lineups, q.name ≠ name) →
      acquire_connection name lineups = (.Exhausted, lineups)) := by
  induction lineups with
  | nil =>
    constructor
    · intro h; simp [provsM] at h
    · intro _; rfl
  | cons l rest ih =>
    constructor
    · intro h
      by_cases hc : l.containsName name
      · refine ⟨[], l, rest, rfl, by simp, (containsName_iff l name).mp hc, ?_⟩
        rw [acquire_connection, if_pos hc]
        rfl
      · have hrest : ∃ q ∈ provsM rest, q.name = name := by
          rcases h with ⟨q, hq, he⟩
          rcases List.mem_append.mp hq with hq2 | hq2
          · exact absurd ((containsName_iff l name).mpr ⟨q, hq2, he⟩) hc
          · exact ⟨q, hq2, he⟩
        obtain ⟨pre, l2, post, h1, h2, h3, h4⟩ := ih.1 hrest
        refine ⟨l :: pre, l2, post, by rw [List.cons_append, h1], ?_, h3, ?_⟩
        · intro l3 hl3 q hq
          rcases List.mem_cons.mp hl3 with rfl | hl3x
          · exact fun he => hc ((containsName_iff l3 name).mpr ⟨q, hq, he⟩)
          · exact h2 l3 hl3x q hq
        · rw [acquire_connection, if_neg hc, h4]
          rfl
    · intro h
      have hc : ¬ l.containsName name = true := by
        intro hcc
        rcases (containsName_iff l name).mp hcc with ⟨q, hq, he⟩
        exact h q (List.mem_append_left _ hq) he
      rw [acquire_connection, if_neg hc,
        ih.2 (fun q hq => h q (List.mem_append_right _ hq))]

/-- Witness for C10: the alias name `a2` lives in the second lineup; the
first lineup is skipped. -/
theorem C10_witness :
    ∃ pre l post,
      [ProviderLineup.Single (mkProvider 9 "x" 1 1),
       ProviderLineup.Single (mkProvider 2 "a2" 1 1)] = pre ++ l :: post ∧
      (∀ l2 ∈ pre, ∀ q ∈ l2.provs, q.name ≠ "a2") ∧
      (∃ q ∈ l.provs, q.name = "a2") ∧
      acquire_connection "a2"
          [ProviderLineup.Single (mkProvider 9 "x" 1 1),
           ProviderLineup.Single (mkProvider 2 "a2" 1 1)] =
        ((l.acquire).1, pre ++ (l.acquire).2 :: post) :=
  (C10_acquire_by_provider_name "a2"
      [ProviderLineup.Single (mkProvider 9 "x" 1 1),
       ProviderLineup.Single (mkProvider 2 "a2" 1 1)]).1 (by decide)

/-- The probe ring loop stops immediately at an accepting cursor position. -/
theorem getNextGroupLoop_accept (grace : Bool) (ps : List ProviderConfig) (t : Nat)
    (ht : t < ps.length) (fuel : Nat) (hf : 0 < fuel)
    (hacc : (ps.get ⟨t, ht⟩).get_next grace = true) :
    getNextGroupLoop grace fuel t ps = (some (ps.get ⟨t, ht⟩), (t + 1) % ps.length) := by
  cases fuel with
  | zero => omega
  | succ f =>
    rw [getNextGroupLoop, List.get?_eq_get ht]
    simp only [List.get_eq_getElem] at hacc
    simp [hacc]

/-- A `MultiProviderGroup` probe with an accepting provider at the cursor
returns it and advances the cursor. -/
theorem get_next_group_accept (ps : List ProviderConfig) (t : Nat)
    (ht : t < ps.length)
    (hacc : (ps.get ⟨t, ht⟩).get_next false = true) :
    get_next_provider_from_group (.MultiProviderGroup t ps) false =
      (some (ps.get ⟨t, ht⟩), .MultiProviderGroup ((t + 1) % ps.length) ps) := by
  rw [get_next_provider_from_group,
    getNextGroupLoop_accept false ps t ht (ps.length - t) (by omega) hacc]

/-- One `get_next` step on a lineup made of a single multi-provider group
whose cursor position accepts: the cursor rotates by one. -/
theorem lineup_one_group_get_next (ps : List ProviderConfig) (t : Nat)
    (ht : t < ps.length)
    (hacc : (ps.get ⟨t, ht⟩).get_next false = true) :
    (ProviderLineup.Multi [.MultiProviderGroup t ps] 0).get_next =
      (some (ps.get ⟨t, ht⟩),
       ProviderLineup.Multi [.MultiProviderGroup ((t + 1) % ps.length) ps] 0) := by
  rw [ProviderLineup.get_next]
  simp only [List.length_cons, List.length_nil, Nat.sub_zero, Nat.zero_add]
  rw [mplGetNextGo]
  simp [get_next_group_accept ps t ht hacc]

/-- C6 (amended): on a lineup consisting of one multi-provider priority group
in a stable state where every member accepts the non-grace probe, the first
`n` `get_next` calls rotate through the ring: call `k` (from cursor `t`)
returns the member at `(t + k) % len`, so every member is visited before any
repeats; the counterexample shows the claimed property fails across priority
groups. -/
theorem C6_group_round_robin (ps : List ProviderConfig)
    (hfree : ∀ p ∈ ps, p.get_next false = true) :
    ∀ n t, t < ps.length →
    getNextIds (ProviderLineup.Multi [.MultiProviderGroup t ps] 0) n =
      (List.range n).map (fun k => (ps.get? ((t + k) % ps.length)).map (·.id)) := by
  intro n
  induction n with
  | zero => intro t ht; simp [getNextIds]
  | succ n ih =>
    intro t ht
    have hlen : 0 < ps.length := by omega
    have hacc : (ps.get ⟨t, ht⟩).get_next false = true :=
      hfree _ (ps.get_mem _ _)
    have ht2 : (t + 1) % ps.length < ps.length := Nat.mod_lt _ hlen
    rw [getNextIds]
    simp only [lineup_one_group_get_next ps t ht hacc, ih ((t + 1) % ps.length) ht2]
    rw [List.range_succ_eq_map, List.map_cons, List.map_map]
    congr 1
    · rw [Nat.add_zero, Nat.mod_eq_of_lt ht, List.get?_eq_get ht]
    · apply List.map_congr_left
      intro k _
      have harg : t + 1 + k = t + (k + 1) := by omega
      simp [Function.comp, Nat.mod_add_mod, harg]

/-- C6 counterexample: a lineup with two single-provider priority groups, both
fresh.  Two successive `get_next` calls both return provider 1 — provider 1
repeats although provider 2 is a non-exhausted member that was never
visited. -/
theorem C6_counterexample :
    getNextIds (MultiProviderLineup.new
        [mkProvider 1 "a" 0 1, mkProvider 2 "b" 1 1]) 2 = [some 1, some 1] ∧
    (∃ p ∈ (MultiProviderLineup.new
        [mkProvider 1 "a" 0 1, mkProvider 2 "b" 1 1]).provs,
      p.id = 2 ∧ p.is_exhausted = false) := by decide

/-- Witness for C6 (amended): two fresh providers in one ring, cursor 0. -/
theorem C6_witness :
    getNextIds (ProviderLineup.Multi
        [.MultiProviderGroup 0 [mkProvider 1 "a" 1 1, mkProvider 2 "b" 1 1]] 0) 2 =
      (List.range 2).map (fun k =>
        (([mkProvider 1 "a" 1 1, mkProvider 2 "b" 1 1].get?
            ((0 + k) % ([mkProvider 1 "a" 1 1, mkProvider 2 "b" 1 1] :
              List ProviderConfig).length))).map (·.id)) :=
  C6_group_round_robin [mkProvider 1 "a" 1 1, mkProvider 2 "b" 1 1]
    (by decide) 2 0 (by decide)

/-- C3: on the S4 lineup, eight successive `acquire` calls return
Available(3), Available(1), Available(2), Available(2), Grace(3), Grace(1),
Grace(2), Exhausted, in that order. -/
theorem C3_scenario_s4 :
    acquireTags lineupS4 8 =
      [AllocTag.available 3, AllocTag.available 1, AllocTag.available 2,
       AllocTag.available 2, AllocTag.grace 3, AllocTag.grace 1,
       AllocTag.grace 2, AllocTag.exhausted] := by decide

